import Mathlib

/-!
Verification of the camera-log dashboard's parsing and session-compression
engine (`src/app.py`), as a shallow embedding in Lean 4.

Modelling conventions:
* Text is `List Char`; Python `str.lower` is `Char.toLower` mapped over the
  characters (the logs are ASCII, where the two agree).
* Python substring tests (`needle in hay`) are `List.IsInfix` (`<:+:`),
  decided by `substr`.
* `datetime` values are modelled by their absolute second count `epochSecs`
  (a `Nat`); `(a - b).total_seconds()` on in-order data is `Nat` subtraction.
* `pandas` DataFrames are `List Event`; `df.sort_values` is modelled by a
  sorted permutation (`List.insertionSort` on the timestamp key; the order of
  rows with identical keys is unspecified by the unstable `quicksort` the
  source uses). `groupby("camera")` is modelled by iterating over the distinct
  camera ids and processing each camera's rows in timestamp order; the claims
  checked here only concern the per-camera session lists, which do not depend
  on the order in which the camera groups are emitted.
* The regex of `parse_logs` is embedded as an explicit backtracking matcher
  with Python `re` semantics: leftmost match, lazy `(.*?)`, greedy `.*`
  (preferring the longest consumption, backtracking from the right), and
  deterministic `\s+`/`\s*` runs (each is followed by a non-space literal).
-/

/-- Python `str.lower` on a list of characters (ASCII-faithful). -/
def lc (l : List Char) : List Char := l.map Char.toLower

/-- Python `needle in hay` (literal substring test), as a decidable Bool. -/
def substr (needle hay : List Char) : Bool := decide (needle <:+: hay)

/-- The character class of Python's `\s` / `str.strip` default (ASCII part). -/
def isPySpace (c : Char) : Bool :=
  c == ' ' || c == '\t' || c == '\n' || c == '\r' || c == '\x0b' || c == '\x0c'

/-- Drop a (possibly empty) run of whitespace: the deterministic `\s*`. -/
def dropWs (l : List Char) : List Char := l.dropWhile isPySpace

/-- Python `str.strip()`. -/
def pyStrip (l : List Char) : List Char :=
  ((l.dropWhile isPySpace).reverse.dropWhile isPySpace).reverse

/-- Take exactly `n` characters, all decimal digits (`\d{n}`). -/
def takeDigitChars : Nat → List Char → Option (List Char × List Char)
  | 0, l => some ([], l)
  | _ + 1, [] => none
  | n + 1, c :: rs =>
    if c.isDigit then (takeDigitChars n rs).map (fun p => (c :: p.1, p.2)) else none

/-- Numeric value of a digit string (Python `int`). -/
def natDigits (l : List Char) : Nat := l.foldl (fun a c => a * 10 + (c.toNat - 48)) 0

/-- Require one literal character. -/
def expect (c : Char) : List Char → Option (List Char)
  | [] => none
  | x :: rs => if x = c then some rs else none

/-- Require one literal character, case-insensitively (`re.IGNORECASE`). -/
def expectCI (c : Char) : List Char → Option (List Char)
  | [] => none
  | x :: rs => if x.toLower = c.toLower then some rs else none

/-- Require at least one whitespace character and skip the whole run (`\s+`
followed by a non-space literal, which makes the greedy run deterministic). -/
def ws1 : List Char → Option (List Char)
  | [] => none
  | c :: rs => if isPySpace c then some (dropWs rs) else none

/-- Strip a literal pattern case-insensitively from the front. -/
def stripCI : List Char → List Char → Option (List Char)
  | [], l => some l
  | _ :: _, [] => none
  | p :: ps, c :: cs => if c.toLower = p.toLower then stripCI ps cs else none

/-- A maximal non-empty digit run (`(\d+)` followed by the literal `%`). -/
def digits1 : List Char → Option (List Char × List Char)
  | [] => none
  | c :: rs =>
    if c.isDigit then
      some (c :: rs.takeWhile Char.isDigit, rs.dropWhile Char.isDigit)
    else none

/-- Match `Battery Level\s*-\s*(\d+)%` at the current position, returning the
battery value. -/
def matchBatteryAt (l : List Char) : Option Nat :=
  Option.bind (stripCI ("battery level".data) l) fun l1 =>
  Option.bind (expect '-' (dropWs l1)) fun l2 =>
  Option.bind (digits1 (dropWs l2)) fun ds =>
  Option.bind (expect '%' ds.2) fun _ =>
  some (natDigits ds.1)

/-- The greedy `.*` before `Battery Level ...`: try the battery clause at the
rightmost position first, backtracking leftwards (`.` does not cross `\n`). -/
def greedyBattery : List Char → Option Nat
  | [] => matchBatteryAt []
  | c :: rs =>
    match (if c = '\n' then none else greedyBattery rs) with
    | some b => some b
    | none => matchBatteryAt (c :: rs)

/-- Match `\s*-.*Battery Level\s*-\s*(\d+)%` at the current position. -/
def matchDashBattery (l : List Char) : Option Nat :=
  Option.bind (expect '-' (dropWs l)) fun l1 => greedyBattery l1

/-- The lazy event group `(.*?)` followed by `\s*-.*Battery Level...`: try the
continuation before consuming each further character, so the group is the
shortest prefix that lets the rest of the pattern match. `acc` holds the
group's characters in reverse. -/
def lazyEvent : List Char → List Char → Option (List Char × Nat)
  | acc, [] => (matchDashBattery []).map fun b => (acc.reverse, b)
  | acc, c :: rs =>
    match matchDashBattery (c :: rs) with
    | some b => some (acc.reverse, b)
    | none => if c = '\n' then none else lazyEvent (c :: acc) rs

/-- One matched log line before timestamp validation: the four regex groups,
with the timestamp group split into its six numeric fields. -/
structure RawLine where
  y : Nat
  mo : Nat
  d : Nat
  h : Nat
  mi : Nat
  s : Nat
  cam : List Char
  event : List Char
  bat : Nat
deriving Repr, DecidableEq

/-- Match `\d{4}-\d{2}-\d{2}` at the current position. -/
def matchDate (l : List Char) : Option ((Nat × Nat × Nat) × List Char) :=
  Option.bind (takeDigitChars 4 l) fun y =>
  Option.bind (expect '-' y.2) fun l1 =>
  Option.bind (takeDigitChars 2 l1) fun mo =>
  Option.bind (expect '-' mo.2) fun l2 =>
  Option.bind (takeDigitChars 2 l2) fun d =>
  some ((natDigits y.1, natDigits mo.1, natDigits d.1), d.2)

/-- Match `\d{2}:\d{2}:\d{2}` at the current position. -/
def matchTime (l : List Char) : Option ((Nat × Nat × Nat) × List Char) :=
  Option.bind (takeDigitChars 2 l) fun h =>
  Option.bind (expect ':' h.2) fun l1 =>
  Option.bind (takeDigitChars 2 l1) fun mi =>
  Option.bind (expect ':' mi.2) fun l2 =>
  Option.bind (takeDigitChars 2 l2) fun sec =>
  some ((natDigits h.1, natDigits mi.1, natDigits sec.1), sec.2)

/-- Match `#ID:(\d{6}-\d{6})` at the current position (the literal tag is
case-insensitive under `re.IGNORECASE`), returning group 2 verbatim. -/
def matchIdCam (l : List Char) : Option (List Char × List Char) :=
  Option.bind (expect '#' l) fun l1 =>
  Option.bind (expectCI 'i' l1) fun l2 =>
  Option.bind (expectCI 'd' l2) fun l3 =>
  Option.bind (expect ':' l3) fun l4 =>
  Option.bind (takeDigitChars 6 l4) fun c1 =>
  Option.bind (expect '-' c1.2) fun l5 =>
  Option.bind (takeDigitChars 6 l5) fun c2 =>
  some (c1.1 ++ '-' :: c2.1, c2.2)

/-- Match the deterministic head
`(\d{4}-\d{2}-\d{2} \d{2}:\d{2}:\d{2})\s+#ID:(\d{6}-\d{6})\s+#`. -/
def matchHeader (l : List Char) : Option ((Nat × Nat × Nat) × (Nat × Nat × Nat) × List Char × List Char) :=
  Option.bind (matchDate l) fun d =>
  Option.bind (expect ' ' d.2) fun l1 =>
  Option.bind (matchTime l1) fun t =>
  Option.bind (ws1 t.2) fun l2 =>
  Option.bind (matchIdCam l2) fun cr =>
  Option.bind (ws1 cr.2) fun l3 =>
  Option.bind (expect '#' l3) fun l4 =>
  some (d.1, t.1, cr.1, l4)

/-- Try the whole pattern at the current position. -/
def matchAt (l : List Char) : Option RawLine :=
  Option.bind (matchHeader l) fun hd =>
  Option.bind (lazyEvent [] hd.2.2.2) fun eb =>
  some ⟨hd.1.1, hd.1.2.1, hd.1.2.2, hd.2.1.1, hd.2.1.2.1, hd.2.1.2.2, hd.2.2.1, eb.1, eb.2⟩

/-- `re.search`: the leftmost position where the pattern matches. -/
def searchFrom : List Char → Option RawLine
  | [] => matchAt []
  | c :: rs =>
    match matchAt (c :: rs) with
    | some g => some g
    | none => searchFrom rs

/-- Gregorian leap-year rule (as used by `datetime`). -/
def isLeap (y : Nat) : Bool := decide ((y % 4 = 0 ∧ ¬y % 100 = 0) ∨ y % 400 = 0)

/-- Days in a month of a given year. -/
def daysInMonth (y m : Nat) : Nat :=
  if m = 2 then (if isLeap y then 29 else 28)
  else if m = 4 ∨ m = 6 ∨ m = 9 ∨ m = 11 then 30
  else 31

/-- `datetime.strptime(ts, "%Y-%m-%d %H:%M:%S")` succeeds on the matched
19-character timestamp exactly when the fields form a real calendar
date-time (Python's `datetime` range: year 1..9999, seconds 0..59). -/
def validDT (g : RawLine) : Bool :=
  decide (1 ≤ g.y ∧ g.y ≤ 9999 ∧ 1 ≤ g.mo ∧ g.mo ≤ 12 ∧
    1 ≤ g.d ∧ g.d ≤ daysInMonth g.y g.mo ∧ g.h ≤ 23 ∧ g.mi ≤ 59 ∧ g.s ≤ 59)

/-- Days in all years before year `y` (proleptic Gregorian). -/
def daysBeforeYear (y : Nat) : Nat :=
  (y - 1) * 365 + (y - 1) / 4 - (y - 1) / 100 + (y - 1) / 400

/-- Days in the months of year `y` before month `m`. -/
def daysBeforeMonth (y m : Nat) : Nat :=
  (List.range (m - 1)).foldl (fun a i => a + daysInMonth y (i + 1)) 0

/-- Absolute second count of a date-time: the model of a `datetime` value.
Differences of `epochSecs` agree with `timedelta.total_seconds()`. -/
def epochSecs (y mo d h mi s : Nat) : Nat :=
  (((daysBeforeYear y + daysBeforeMonth y mo + (d - 1)) * 24 + h) * 60 + mi) * 60 + s

/-- One row of the parsed DataFrame: `timestamp, camera, event, battery`
(the `file` column is traceability only and is not modelled). -/
structure Event where
  ts : Nat
  cam : List Char
  event : List Char
  bat : Nat
deriving Repr, DecidableEq

/-- Build the DataFrame row from a regex match (camera is group 2 verbatim;
the event group is `.strip()`ped; battery is `int` of group 4). -/
def RawLine.toEvent (g : RawLine) : Event :=
  ⟨epochSecs g.y g.mo g.d g.h g.mi g.s, g.cam, pyStrip g.event, g.bat⟩

/-- Parse one (already stripped) line: `pattern.search`, then
`datetime.strptime` inside `try/except` — an invalid calendar date drops the
whole line (the search is not resumed at a later position). -/
def parse_line (line : List Char) : Option Event :=
  match searchFrom line with
  | none => none
  | some g => if validDT g then some g.toEvent else none

/-- Explicit concatMap, used to model appending rows per line / per group. -/
def concatMap (f : α → List β) : List α → List β
  | [] => []
  | a :: l => f a ++ concatMap f l

/-- `parse_logs` over the lines of the uploaded files: strip each line, skip
blank lines, and append the parsed row (if any). Total by construction: a
non-matching or invalid line contributes nothing and later lines are
unaffected. -/
def parse_logs (lines : List (List Char)) : List Event :=
  concatMap
    (fun raw =>
      if pyStrip raw = [] then [] else (parse_line (pyStrip raw)).toList)
    lines

/-- One session row. Charging rows and paired rows share this shape
(`camera, start, end, start_bat, end_bat`); the derived `duration_h` column
and the constant per-builder `event` label column are presentation data
computed from these fields. `stop` models the Python column `end`. -/
structure Session where
  cam : List Char
  start : Nat
  stop : Nat
  start_bat : Nat
  end_bat : Nat
deriving Repr, DecidableEq

/-- The derived `duration_h` column: `(end - start).total_seconds()/3600.0`
(exact rational arithmetic; the concrete durations of the spec scenarios are
exactly representable in binary floating point as well). -/
def Session.duration_h (s : Session) : ℚ := ((s.stop - s.start : ℕ) : ℚ) / 3600

/-- `TIME_GAP_SECONDS = 600`: the idle-gap threshold (`src/app.py` line 15). -/
def TIME_GAP_SECONDS : Nat := 600

/-- Sort rows by timestamp: `df.sort_values(["camera","timestamp"])`
restricted to one camera's rows (ties between identical timestamps are in
unspecified order in the source's unstable sort; any sorted permutation is a
faithful model). -/
def sortByTs (es : List Event) : List Event :=
  List.insertionSort (fun a b => a.ts ≤ b.ts) es

/-- The inner loop of `build_charging_sessions` over one camera's rows
(pairs `(timestamp, battery)`), carrying `session_start, start_bat,
last_time, last_bat`. A gap `cur - last_time > TIME_GAP_SECONDS` closes the
current session at `last_time` and opens a new one at `cur`. -/
def chargingLoop (c : List Char) (ss sb lt lb : Nat) : List (Nat × Nat) → List Session
  | [] => [⟨c, ss, lt, sb, lb⟩]
  | e :: rest =>
    if e.1 - lt ≤ TIME_GAP_SECONDS then chargingLoop c ss sb e.1 e.2 rest
    else ⟨c, ss, lt, sb, lb⟩ :: chargingLoop c e.1 e.2 e.1 e.2 rest

/-- `build_charging_sessions` for one camera group `g` (already sorted by
timestamp): initialise the state from the first row and run the loop. -/
def chargingCam (c : List Char) (es : List Event) : List Session :=
  match es with
  | [] => []
  | e :: rest => chargingLoop c e.ts e.bat e.ts e.bat (rest.map fun x => (x.ts, x.bat))

/-- The row filter of `build_charging_sessions`:
`df["event"].str.contains("charging", case=False, na=False)` (a literal
pattern, case-insensitive). -/
def chargingFilter (e : Event) : Bool := substr ("charging".data) (lc e.event)

/-- `build_charging_sessions`: filter charging rows, then process each
camera's rows in timestamp order. -/
def build_charging_sessions (df : List Event) : List Session :=
  concatMap
    (fun c => chargingCam c
      (sortByTs ((df.filter chargingFilter).filter (fun e => decide (e.cam = c)))))
    (((df.filter chargingFilter).map (fun e => e.cam)).dedup)

/-- The per-row keyword test of `build_pair_sessions`:
`start_keyword in ev` where `ev = r["event"].lower()` — a literal substring
test of the keyword argument (not lowered; call sites pass lowercase) against
the lowercased event text. -/
def kwIn (kw : List Char) (e : Event) : Bool := substr kw (lc e.event)

/-- The row filter of `build_pair_sessions`:
`df["event"].str.contains(start_keyword + "|" + stop_keyword, case=False)`.
Unlike the per-row test, `str.contains` treats the pattern as a REGEX, so
`|` is alternation: a row passes iff some `|`-separated alternative occurs
case-insensitively in its event text. -/
def pairFilter (sk tk : List Char) (e : Event) : Bool :=
  ((sk ++ '|' :: tk).splitOn '|').any (fun alt => substr (lc alt) (lc e.event))

/-- The inner loop of `build_pair_sessions` over one camera's rows in
chronological order: a start keyword match (re)sets `pending_start`; a stop
keyword match on a non-start row with a pending start emits a session and
clears the pending state; other rows are skipped. -/
def pairLoop (sk tk : List Char) (c : List Char) : Option (Nat × Nat) → List Event → List Session
  | _, [] => []
  | none, e :: rest =>
    if kwIn sk e then pairLoop sk tk c (some (e.ts, e.bat)) rest
    else pairLoop sk tk c none rest
  | some (pts, pbat), e :: rest =>
    if kwIn sk e then pairLoop sk tk c (some (e.ts, e.bat)) rest
    else if kwIn tk e then ⟨c, pts, e.ts, pbat, e.bat⟩ :: pairLoop sk tk c none rest
    else pairLoop sk tk c (some (pts, pbat)) rest

/-- `build_pair_sessions`: regex-filter rows on `start|stop`, then scan each
camera's rows in timestamp order pairing starts with following stops.
Incomplete pairs are ignored. -/
def build_pair_sessions (sk tk : List Char) (df : List Event) : List Session :=
  concatMap
    (fun c => pairLoop sk tk c none
      (sortByTs ((df.filter (pairFilter sk tk)).filter (fun e => decide (e.cam = c)))))
    (((df.filter (pairFilter sk tk)).map (fun e => e.cam)).dedup)

/-- `power_sessions` (`src/app.py` line 253). -/
def power_sessions (df : List Event) : List Session :=
  build_pair_sessions ("power on".data) ("power off".data) df

/-- `rec_sessions` (`src/app.py` line 255). -/
def rec_sessions (df : List Event) : List Session :=
  build_pair_sessions ("start record".data) ("stop record".data) df

/-- `pre_rec_sessions` (`src/app.py` line 256): the keyword arguments are
whole alternation strings containing `|`. -/
def pre_rec_sessions (df : List Event) : List Session :=
  build_pair_sessions
    ("start pre-record|start pre record|start pre_record".data)
    ("stop pre-record|stop pre record|stop pre_record".data) df

/-- The sessions a given camera gets from the charging builder. -/
def charging_sessions_for (df : List Event) (c : List Char) : List Session :=
  (build_charging_sessions df).filter (fun s => decide (s.cam = c))

/-- The sessions a given camera gets from the pair builder. -/
def pair_sessions_for (sk tk : List Char) (df : List Event) (c : List Char) : List Session :=
  (build_pair_sessions sk tk df).filter (fun s => decide (s.cam = c))

/-- Python `str.replace(pat, sub)` with a non-empty pattern `p :: ps`:
left-to-right, non-overlapping, the replacement text is not rescanned.
Structured with explicit fuel (each step consumes at least one character and
one unit of fuel, so `fuel = length` never runs out). -/
def replaceAllGo (p : Char) (ps sub : List Char) : Nat → List Char → List Char
  | _, [] => []
  | 0, l => l
  | fuel + 1, c :: rest =>
    if c = p ∧ ps.isPrefixOf rest then
      sub ++ replaceAllGo p ps sub fuel (rest.drop ps.length)
    else c :: replaceAllGo p ps sub fuel rest

/-- Python `str.replace(pat, sub)` with pattern `p :: ps`. -/
def replaceAll (p : Char) (ps sub l : List Char) : List Char :=
  replaceAllGo p ps sub l.length l

/-- Python `str.replace` (patterns used by the source are non-empty). -/
def pyReplace (pat sub s : List Char) : List Char :=
  match pat with
  | [] => s
  | p :: ps => replaceAll p ps sub s

/-- Python `str.title()` (ASCII): uppercase a letter that follows a
non-letter, lowercase a letter that follows a letter. -/
def titleAux : Bool → List Char → List Char
  | _, [] => []
  | prevAlpha, c :: rest =>
    (if c.isAlpha then (if prevAlpha then c.toLower else c.toUpper) else c) ::
      titleAux c.isAlpha rest

/-- Python `str.title()` on a whole string. -/
def title (s : List Char) : List Char := titleAux false s

/-- The ordered `ev_map` table of `normalize_event_name` (insertion order of
the Python dict, which is preserved). -/
def ev_map : List (List Char × List Char) :=
  [("power on".data, "Powered On".data),
   ("power off".data, "Powered Off".data),
   ("system power off - auto".data, "Automatic Shutdown".data),
   ("system power off - usb remove".data, "Shutdown (USB removed)".data),
   ("battery charging".data, "Charging".data),
   ("battery changing done".data, "Charging Completed".data),
   ("start record".data, "Recording Started".data),
   ("stop record".data, "Recording Stopped".data),
   ("start pre record".data, "Pre-record Started".data),
   ("stop pre record".data, "Pre-record Stopped".data),
   ("low battery".data, "Low Battery".data)]

/-- First table entry whose key is a substring of the lowercased label. -/
def lookupEvMap : List (List Char × List Char) → List Char → Option (List Char)
  | [], _ => none
  | kv :: rest, evl => if substr kv.1 evl then some kv.2 else lookupEvMap rest evl

/-- `normalize_event_name`: the match is tested against the lowercase of the
ORIGINAL label (`ev_l` is computed before the replacements), the three
literal replacements are applied to the label itself, and the fallback
returns `ev.title()` of the replaced label. -/
def normalize_event_name (ev : List Char) : List Char :=
  match lookupEvMap ev_map (lc ev) with
  | some v => v
  | none =>
    title
      (pyReplace ("auto".data) ("automatic".data)
        (pyReplace ("usb remove".data) ("USB removed".data)
          (pyReplace ("usb command".data) ("USB disconnected".data) ev)))

/-- One camera's charging rows in processing order. -/
def charging_rows (df : List Event) (c : List Char) : List Event :=
  sortByTs ((df.filter chargingFilter).filter (fun e => decide (e.cam = c)))

/-- A concrete charging event used by witnesses. -/
def evW (t b : Nat) : Event := ⟨t, "007446".data, "Battery Charging".data, b⟩

/-- A concrete three-ping charging log: two pings 100 s apart followed by a
third 9900 s later. -/
def dfW : List Event := [evW 0 50, evW 100 60, evW 10000 70]

/-- One camera's rows in processing order for the pair builder. -/
def pair_rows (sk tk : List Char) (df : List Event) (c : List Char) : List Event :=
  sortByTs ((df.filter (pairFilter sk tk)).filter (fun e => decide (e.cam = c)))

/-- Concrete rows for the pair-builder witnesses. -/
def evOn (t b : Nat) : Event := ⟨t, "007446".data, "Power On".data, b⟩

/-- Concrete stop row. -/
def evOff (t b : Nat) : Event := ⟨t, "007446".data, "Power Off".data, b⟩

/-- Two starts then one stop, concretely. -/
def dfC3 : List Event := [evOn 0 50, evOn 100 60, evOff 200 70]

/-- The spec's Power-On scenario row at 08:00 with battery 90%. -/
def e1P : Event := ⟨epochSecs 2025 9 9 8 0 0, "007446".data, "Power On".data, 90⟩

/-- The spec's Power-Off scenario row at 18:00 with battery 40%. -/
def e2P : Event := ⟨epochSecs 2025 9 9 18 0 0, "007446".data, "Power Off".data, 40⟩

/-- The full start alternation string of the pre-record invocation. -/
def preStartKw : List Char :=
  "start pre-record|start pre record|start pre_record".data

/-- An adversarial log whose event texts are literally the alternation
strings, pipes included. -/
def dfPipe : List Event :=
  [⟨0, "007446".data, "start pre-record|start pre record|start pre_record".data, 10⟩,
   ⟨5, "007446".data, "stop pre-record|stop pre record|stop pre_record".data, 20⟩]

/-- The spec's malformed-timestamp line: the digit layout fits the regex but
month 13 / day 40 / hour 99 is not a real date-time. -/
def badLine : List Char :=
  "2025-13-40 99:99:99 #ID:007446-000000 #Battery Charging - Battery Level - 66%".data

/-- The claim's own scenario line: valid timestamp, camera id and event text
but no trailing battery clause. -/
def noBatteryLine : List Char :=
  "2025-09-09 00:01:44 #ID:007446-000000 #Power On".data

/-- The spec's own sample line. -/
def sampleLine : List Char :=
  "2025-09-09 00:01:44 #ID:007446-000000 #Battery Charging - Battery Level - 66%".data

instance : IsTotal Event (fun a b => a.ts ≤ b.ts) := ⟨fun a b => Nat.le_total a.ts b.ts⟩

instance : IsTrans Event (fun a b => a.ts ≤ b.ts) := ⟨fun _ _ _ h h' => Nat.le_trans h h'⟩

/-! ## Generic helper lemmas -/

theorem substr_iff {n h : List Char} : substr n h = true ↔ n <:+: h := by
  simp [substr]

theorem mem_concatMap {f : α → List β} {l : List α} {b : β} :
    b ∈ concatMap f l ↔ ∃ a ∈ l, b ∈ f a := by
  induction l with
  | nil => simp [concatMap]
  | cons a l ih => simp [concatMap, ih]

theorem concatMap_append (f : α → List β) (l₁ l₂ : List α) :
    concatMap f (l₁ ++ l₂) = concatMap f l₁ ++ concatMap f l₂ := by
  induction l₁ with
  | nil => simp [concatMap]
  | cons a l ih => simp [concatMap, ih]

theorem filter_concatMap (p : β → Bool) (f : α → List β) (l : List α) :
    (concatMap f l).filter p = concatMap (fun a => (f a).filter p) l := by
  induction l with
  | nil => simp [concatMap]
  | cons a l ih => simp [concatMap, List.filter_append, ih]

theorem concatMap_eq_single [DecidableEq α] {f : α → List β} {l : List α} {c : α}
    (hn : l.Nodup) (h : ∀ a ∈ l, a ≠ c → f a = []) :
    concatMap f l = if c ∈ l then f c else [] := by
  induction l with
  | nil => simp [concatMap]
  | cons a l ih =>
    rw [List.nodup_cons] at hn
    by_cases hac : a = c
    · subst hac
      have hrest : concatMap f l = [] := by
        have := ih hn.2 (fun x hx _ => h x (List.mem_cons_of_mem _ hx)
          (fun hxa => hn.1 (hxa ▸ hx)))
        rwa [if_neg hn.1] at this
      simp [concatMap, hrest]
    · have hfa : f a = [] := h a (List.mem_cons_self _ _) hac
      have := ih hn.2 (fun x hx hxc => h x (List.mem_cons_of_mem _ hx) hxc)
      simp only [concatMap, hfa, List.nil_append, this]
      by_cases hc : c ∈ l
      · simp [hc, List.mem_cons, Ne.symm hac]
      · simp [hc, List.mem_cons, Ne.symm hac]

theorem sortByTs_sorted (es : List Event) :
    List.Sorted (fun a b => a.ts ≤ b.ts) (sortByTs es) :=
  List.sorted_insertionSort _ es

theorem mem_sortByTs {es : List Event} {e : Event} : e ∈ sortByTs es ↔ e ∈ es :=
  List.mem_insertionSort _

/-- The generic bridge between a per-camera session builder applied group by
group over the distinct cameras and the sessions reaching one camera: the
output rows a camera `c` gets are exactly the rows its own group produces. -/
theorem sessions_for_eq (F : List Char → List Event → List Session)
    (hcam : ∀ c' es s, s ∈ F c' es → s.cam = c')
    (hnil : ∀ c', F c' [] = [])
    (dfx : List Event) (c : List Char) :
    (concatMap (fun c' => F c' (sortByTs (dfx.filter (fun e => decide (e.cam = c')))))
        ((dfx.map (fun e => e.cam)).dedup)).filter (fun s => decide (s.cam = c)) =
      F c (sortByTs (dfx.filter (fun e => decide (e.cam = c)))) := by
  rw [filter_concatMap]
  have hstep :
      (fun c' => (F c' (sortByTs (dfx.filter (fun e => decide (e.cam = c'))))).filter
        (fun s => decide (s.cam = c))) =
      (fun c' => if c' = c then F c' (sortByTs (dfx.filter (fun e => decide (e.cam = c')))) else []) := by
    funext c'
    by_cases hc : c' = c
    · subst hc
      rw [if_pos rfl]
      apply List.filter_eq_self.mpr
      intro s hs
      simp [hcam _ _ _ hs]
    · rw [if_neg hc]
      apply List.filter_eq_nil_iff.mpr
      intro s hs
      simp [hcam _ _ _ hs, hc]
  rw [hstep]
  rw [concatMap_eq_single (List.nodup_dedup _) (fun a _ hac => if_neg hac)]
  by_cases hmem : c ∈ (dfx.map (fun e => e.cam)).dedup
  · rw [if_pos hmem, if_pos rfl]
  · rw [if_neg hmem]
    have hflt : dfx.filter (fun e => decide (e.cam = c)) = [] := by
      apply List.filter_eq_nil_iff.mpr
      intro e he hec
      apply hmem
      rw [List.mem_dedup, List.mem_map]
      exact ⟨e, he, by simpa using hec⟩
    rw [hflt]
    exact (hnil c).symm

/-! ## Charging-session lemmas -/

theorem chargingLoop_cam (c : List Char) :
    ∀ (rest : List (Nat × Nat)) (ss sb lt lb : Nat) (s : Session),
      s ∈ chargingLoop c ss sb lt lb rest → s.cam = c := by
  intro rest
  induction rest with
  | nil =>
    intro ss sb lt lb s hs
    simp only [chargingLoop, List.mem_singleton] at hs
    rw [hs]
  | cons e rest ih =>
    intro ss sb lt lb s hs
    simp only [chargingLoop] at hs
    split at hs
    · exact ih _ _ _ _ _ hs
    · rcases List.mem_cons.mp hs with h | h
      · rw [h]
      · exact ih _ _ _ _ _ h

theorem chargingCam_cam (c : List Char) (es : List Event) :
    ∀ s ∈ chargingCam c es, s.cam = c := by
  intro s hs
  cases es with
  | nil => simp [chargingCam] at hs
  | cons e rest => exact chargingLoop_cam c _ _ _ _ _ _ hs

/-- The bridge: the charging sessions a camera gets from the full builder are
exactly those produced by scanning its own (filtered, sorted) rows. -/
theorem charging_sessions_for_eq (df : List Event) (c : List Char) :
    charging_sessions_for df c = chargingCam c (charging_rows df c) :=
  sessions_for_eq chargingCam
    (fun c' es s hs => chargingCam_cam c' es s hs)
    (fun _ => rfl) (df.filter chargingFilter) c

/-- The loop output is non-empty, its first session starts at the carried
`session_start`, and that session's end is at least `last_time`. -/
theorem chargingLoop_head (c : List Char) :
    ∀ (rest : List (Nat × Nat)) (ss sb lt lb : Nat),
      List.Pairwise (fun a b => a.1 ≤ b.1) rest →
      (∀ x ∈ rest, lt ≤ x.1) →
      ∃ hd tl, chargingLoop c ss sb lt lb rest = hd :: tl ∧ hd.start = ss ∧ lt ≤ hd.stop := by
  intro rest
  induction rest with
  | nil =>
    intro ss sb lt lb _ _
    exact ⟨⟨c, ss, lt, sb, lb⟩, [], rfl, rfl, le_refl lt⟩
  | cons e rest ih =>
    intro ss sb lt lb hsorted hlb
    rw [List.pairwise_cons] at hsorted
    simp only [chargingLoop]
    split
    · obtain ⟨hd, tl, heq, h1, h2⟩ := ih ss sb e.1 e.2 hsorted.2 hsorted.1
      exact ⟨hd, tl, heq, h1, le_trans (hlb e (List.mem_cons_self _ _)) h2⟩
    · exact ⟨⟨c, ss, lt, sb, lb⟩, _, rfl, rfl, le_refl lt⟩

/-- Every produced session satisfies `start ≤ end`, and consecutive sessions
satisfy `end ≤ next.start`. -/
theorem chargingLoop_chain (c : List Char) :
    ∀ (rest : List (Nat × Nat)) (ss sb lt lb : Nat),
      List.Pairwise (fun a b => a.1 ≤ b.1) rest →
      (∀ x ∈ rest, lt ≤ x.1) → ss ≤ lt →
      (∀ s ∈ chargingLoop c ss sb lt lb rest, s.start ≤ s.stop) ∧
      List.Chain' (fun s t => s.stop ≤ t.start) (chargingLoop c ss sb lt lb rest) := by
  intro rest
  induction rest with
  | nil =>
    intro ss sb lt lb _ _ hsl
    constructor
    · intro s hs
      simp only [chargingLoop, List.mem_singleton] at hs
      rw [hs]
      exact hsl
    · simp [chargingLoop]
  | cons e rest ih =>
    intro ss sb lt lb hsorted hlb hsl
    rw [List.pairwise_cons] at hsorted
    have hlte : lt ≤ e.1 := hlb e (List.mem_cons_self _ _)
    simp only [chargingLoop]
    split
    · exact ih ss sb e.1 e.2 hsorted.2 hsorted.1 (le_trans hsl hlte)
    · obtain ⟨hmem, hch⟩ := ih e.1 e.2 e.1 e.2 hsorted.2 hsorted.1 (le_refl _)
      obtain ⟨hd, tl, heq, hhd1, hhd2⟩ := chargingLoop_head c rest e.1 e.2 e.1 e.2 hsorted.2 hsorted.1
      constructor
      · intro s hs
        rcases List.mem_cons.mp hs with h | h
        · rw [h]; exact hsl
        · exact hmem s h
      · rw [List.chain'_cons']
        refine ⟨?_, hch⟩
        intro b hb
        rw [heq] at hb
        simp only [List.head?_cons, Option.mem_def, Option.some.injEq] at hb
        rw [← hb, hhd1]
        exact hlte

/-- Gap-split, split case: if two adjacent rows of the virtual processing
list (the carried last event followed by the remaining rows) are more than
the threshold apart, the output contains two consecutive sessions, the first
ending at the earlier row and the second starting at the later row. -/
theorem chargingLoop_gap_split (c : List Char) :
    ∀ (rest : List (Nat × Nat)) (ss sb lt lb : Nat) (p q : List (Nat × Nat)) (a b : Nat × Nat),
      List.Pairwise (fun x y => x.1 ≤ y.1) rest →
      (∀ x ∈ rest, lt ≤ x.1) → ss ≤ lt →
      (lt, lb) :: rest = p ++ a :: b :: q →
      a.1 + TIME_GAP_SECONDS < b.1 →
      ∃ p' s1 s2 q', chargingLoop c ss sb lt lb rest = p' ++ s1 :: s2 :: q' ∧
        s1.stop = a.1 ∧ s2.start = b.1 := by
  intro rest
  induction rest with
  | nil =>
    intro ss sb lt lb p q a b _ _ _ heq _
    exfalso
    cases p with
    | nil => simp at heq
    | cons x p => simp at heq
  | cons e rest ih =>
    intro ss sb lt lb p q a b hsorted hlb hsl heq hgap
    rw [List.pairwise_cons] at hsorted
    have hlte : lt ≤ e.1 := hlb e (List.mem_cons_self _ _)
    cases p with
    | nil =>
      -- a is the carried last event, b is the next row
      simp only [List.nil_append, List.cons.injEq] at heq
      obtain ⟨ha, hrest⟩ := heq
      have ha1 : a.1 = lt := by rw [← ha]
      have hb : e = b := hrest.1
      have hcond : ¬(e.1 - lt ≤ TIME_GAP_SECONDS) := by
        rw [hb, ← ha1]
        omega
      simp only [chargingLoop, if_neg hcond]
      obtain ⟨hd, tl, hinner, hhd1, _⟩ :=
        chargingLoop_head c rest e.1 e.2 e.1 e.2 hsorted.2 hsorted.1
      refine ⟨[], ⟨c, ss, lt, sb, lb⟩, hd, tl, ?_, ?_, ?_⟩
      · rw [List.nil_append, hinner]
      · exact ha1.symm
      · rw [hhd1, hb]
    | cons x p =>
      simp only [List.cons_append, List.cons.injEq] at heq
      have hrest : e :: rest = p ++ a :: b :: q := by
        have h2 := heq.2
        calc e :: rest = (e.1, e.2) :: rest := by rfl
        _ = p ++ a :: b :: q := h2
      simp only [chargingLoop]
      split
      · exact ih ss sb e.1 e.2 p q a b hsorted.2 hsorted.1
          (le_trans hsl hlte) hrest hgap
      · obtain ⟨p', s1, s2, q', hinner, h1, h2⟩ :=
          ih e.1 e.2 e.1 e.2 p q a b hsorted.2 hsorted.1 (le_refl _) hrest hgap
        exact ⟨⟨c, ss, lt, sb, lb⟩ :: p', s1, s2, q', by rw [List.cons_append, hinner], h1, h2⟩

/-- Gap-split, merge case: two adjacent rows at most the threshold apart end
up inside one and the same session. -/
theorem chargingLoop_same_session (c : List Char) :
    ∀ (rest : List (Nat × Nat)) (ss sb lt lb : Nat) (p q : List (Nat × Nat)) (a b : Nat × Nat),
      List.Pairwise (fun x y => x.1 ≤ y.1) rest →
      (∀ x ∈ rest, lt ≤ x.1) → ss ≤ lt →
      (lt, lb) :: rest = p ++ a :: b :: q →
      b.1 - a.1 ≤ TIME_GAP_SECONDS →
      ∃ s ∈ chargingLoop c ss sb lt lb rest, s.start ≤ a.1 ∧ b.1 ≤ s.stop := by
  intro rest
  induction rest with
  | nil =>
    intro ss sb lt lb p q a b _ _ _ heq _
    exfalso
    cases p with
    | nil => simp at heq
    | cons x p => simp at heq
  | cons e rest ih =>
    intro ss sb lt lb p q a b hsorted hlb hsl heq hgap
    rw [List.pairwise_cons] at hsorted
    have hlte : lt ≤ e.1 := hlb e (List.mem_cons_self _ _)
    cases p with
    | nil =>
      simp only [List.nil_append, List.cons.injEq] at heq
      obtain ⟨ha, hrest⟩ := heq
      have ha1 : a.1 = lt := by rw [← ha]
      have hb : e = b := hrest.1
      have hcond : e.1 - lt ≤ TIME_GAP_SECONDS := by
        rw [hb, ← ha1]
        omega
      simp only [chargingLoop, if_pos hcond]
      obtain ⟨hd, tl, hinner, hhd1, hhd2⟩ :=
        chargingLoop_head c rest ss sb e.1 e.2 hsorted.2 hsorted.1
      refine ⟨hd, by rw [hinner]; exact List.mem_cons_self _ _, ?_, ?_⟩
      · rw [hhd1, ha1]; exact hsl
      · rw [← hb]; exact hhd2
    | cons x p =>
      simp only [List.cons_append, List.cons.injEq] at heq
      have hrest : e :: rest = p ++ a :: b :: q := by
        have h2 := heq.2
        calc e :: rest = (e.1, e.2) :: rest := by rfl
        _ = p ++ a :: b :: q := h2
      simp only [chargingLoop]
      split
      · exact ih ss sb e.1 e.2 p q a b hsorted.2 hsorted.1
          (le_trans hsl hlte) hrest hgap
      · obtain ⟨s, hmem, h1, h2⟩ :=
          ih e.1 e.2 e.1 e.2 p q a b hsorted.2 hsorted.1 (le_refl _) hrest hgap
        exact ⟨s, List.mem_cons_of_mem _ hmem, h1, h2⟩

theorem chargingCam_cons (c : List Char) (e0 : Event) (rest : List Event) :
    chargingCam c (e0 :: rest) =
      chargingLoop c e0.ts e0.bat e0.ts e0.bat (rest.map fun x => (x.ts, x.bat)) := rfl

/-- Claim C1: gap-based splitting of charging sessions. For every camera and
every two consecutive charging events of that camera (adjacent rows `a`, `b`
of its sorted charging rows): if they are more than `TIME_GAP_SECONDS` apart
the builder produces two distinct consecutive sessions, the first ending at
the earlier event and the second starting at the later one; if they are at
most the threshold apart they lie inside one and the same session. -/
theorem C1_gap_split (df : List Event) (cam : List Char)
    (p q : List Event) (a b : Event)
    (hadj : charging_rows df cam = p ++ a :: b :: q) :
    (b.ts - a.ts > TIME_GAP_SECONDS →
      ∃ p' s1 s2 q', charging_sessions_for df cam = p' ++ s1 :: s2 :: q' ∧
        s1.stop = a.ts ∧ s2.start = b.ts ∧ s1 ≠ s2) ∧
    (b.ts - a.ts ≤ TIME_GAP_SECONDS →
      ∃ s ∈ charging_sessions_for df cam, s.start ≤ a.ts ∧ b.ts ≤ s.stop) := by
  rw [charging_sessions_for_eq, hadj]
  have hsorted : List.Sorted (fun x y : Event => x.ts ≤ y.ts) (p ++ a :: b :: q) := by
    rw [← hadj]
    exact sortByTs_sorted _
  cases hp : p ++ a :: b :: q with
  | nil => cases p <;> simp at hp
  | cons e0 rest =>
    rw [hp] at hsorted
    rw [List.sorted_cons] at hsorted
    have hmap : ((e0.ts, e0.bat) : Nat × Nat) :: rest.map (fun x => (x.ts, x.bat)) =
        (p.map fun x => (x.ts, x.bat)) ++
          (a.ts, a.bat) :: (b.ts, b.bat) :: (q.map fun x => (x.ts, x.bat)) := by
      have := congrArg (List.map fun x : Event => (x.ts, x.bat)) hp
      simpa using this.symm
    have hpw : List.Pairwise (fun x y : Nat × Nat => x.1 ≤ y.1)
        (rest.map fun x => (x.ts, x.bat)) := by
      rw [List.pairwise_map]
      exact hsorted.2
    have hlb : ∀ x ∈ rest.map (fun x : Event => (x.ts, x.bat)), e0.ts ≤ x.1 := by
      intro x hx
      rw [List.mem_map] at hx
      obtain ⟨y, hy, rfl⟩ := hx
      exact hsorted.1 y hy
    constructor
    · intro hgap
      have hgap' : (a.ts, a.bat).1 + TIME_GAP_SECONDS < (b.ts, b.bat).1 := by
        simp only
        omega
      obtain ⟨p', s1, s2, q', hout, h1, h2⟩ :=
        chargingLoop_gap_split cam (rest.map fun x => (x.ts, x.bat))
          e0.ts e0.bat e0.ts e0.bat
          (p.map fun x => (x.ts, x.bat)) (q.map fun x => (x.ts, x.bat))
          (a.ts, a.bat) (b.ts, b.bat) hpw hlb (le_refl _) hmap hgap'
      have hmem := (chargingLoop_chain cam (rest.map fun x => (x.ts, x.bat))
          e0.ts e0.bat e0.ts e0.bat hpw hlb (le_refl _)).1
      have hs1 : s1 ∈ chargingLoop cam e0.ts e0.bat e0.ts e0.bat
          (rest.map fun x => (x.ts, x.bat)) := by
        rw [hout]; simp
      have hs12 : s1 ≠ s2 := by
        intro heq12
        have hle := hmem s1 hs1
        rw [heq12] at hle h1
        simp only at h1 h2 hgap'
        omega
      exact ⟨p', s1, s2, q', by rw [chargingCam_cons, hout], h1, h2, hs12⟩
    · intro hgap
      have hgap' : ((b.ts, b.bat) : Nat × Nat).1 - (a.ts, a.bat).1 ≤ TIME_GAP_SECONDS := by
        simpa using hgap
      obtain ⟨s, hmem, h1, h2⟩ :=
        chargingLoop_same_session cam (rest.map fun x => (x.ts, x.bat))
          e0.ts e0.bat e0.ts e0.bat
          (p.map fun x => (x.ts, x.bat)) (q.map fun x => (x.ts, x.bat))
          (a.ts, a.bat) (b.ts, b.bat) hpw hlb (le_refl _) hmap hgap'
      exact ⟨s, by rw [chargingCam_cons]; exact hmem, h1, h2⟩

/-- Witness for C1 at a concrete input: the 9900 s gap splits (the first
session ends at 100, the next starts at 10000), and the 100 s gap does not
(both pings fall inside one session). -/
theorem C1_gap_split_witness :
    (∃ p' s1 s2 q',
        charging_sessions_for dfW ("007446".data) = p' ++ s1 :: s2 :: q' ∧
        s1.stop = 100 ∧ s2.start = 10000 ∧ s1 ≠ s2) ∧
    (∃ s ∈ charging_sessions_for dfW ("007446".data), s.start ≤ 0 ∧ 100 ≤ s.stop) :=
  ⟨(C1_gap_split dfW ("007446".data) [evW 0 50] [] (evW 100 60) (evW 10000 70)
      (by decide)).1 (by decide),
   (C1_gap_split dfW ("007446".data) [] [evW 10000 70] (evW 0 50) (evW 100 60)
      (by decide)).2 (by decide)⟩

/-! ## Pair-session lemmas -/

theorem pairLoop_cam (sk tk c : List Char) :
    ∀ (es : List Event) (pend : Option (Nat × Nat)) (s : Session),
      s ∈ pairLoop sk tk c pend es → s.cam = c := by
  intro es
  induction es with
  | nil => intro pend s hs; cases pend <;> simp [pairLoop] at hs
  | cons e es ih =>
    intro pend s hs
    rcases pend with _ | ⟨pts, pbat⟩
    · simp only [pairLoop] at hs
      split at hs
      · exact ih _ _ hs
      · exact ih _ _ hs
    · simp only [pairLoop] at hs
      split at hs
      · exact ih _ _ hs
      · split at hs
        · rcases List.mem_cons.mp hs with h | h
          · rw [h]
          · exact ih _ _ h
        · exact ih _ _ hs

/-- The bridge for the pair builder. -/
theorem pair_sessions_for_eq (sk tk : List Char) (df : List Event) (c : List Char) :
    pair_sessions_for sk tk df c = pairLoop sk tk c none (pair_rows sk tk df c) :=
  sessions_for_eq (fun c' es => pairLoop sk tk c' none es)
    (fun c' es s hs => pairLoop_cam sk tk c' es none s hs)
    (fun _ => rfl) (df.filter (pairFilter sk tk)) c

/-- Lower bound on session starts: every session produced from rows bounded
below by `L` (including the pending start, if any) starts no earlier than
`L`. -/
theorem pairLoop_start_lb (sk tk c : List Char) :
    ∀ (es : List Event) (pend : Option (Nat × Nat)) (L : Nat),
      (∀ e ∈ es, L ≤ e.ts) →
      (∀ pt pb, pend = some (pt, pb) → L ≤ pt) →
      ∀ s ∈ pairLoop sk tk c pend es, L ≤ s.start := by
  intro es
  induction es with
  | nil => intro pend L _ _ s hs; cases pend <;> simp [pairLoop] at hs
  | cons e es ih =>
    intro pend L hlb hpend s hs
    have hle : L ≤ e.ts := hlb e (List.mem_cons_self _ _)
    have hlb' : ∀ x ∈ es, L ≤ x.ts := fun x hx => hlb x (List.mem_cons_of_mem _ hx)
    rcases pend with _ | ⟨pts, pbat⟩
    · simp only [pairLoop] at hs
      split at hs
      · exact ih _ L hlb' (fun pt pb hp => by cases hp; exact hle) s hs
      · exact ih _ L hlb' (fun _ _ hp => by cases hp) s hs
    · simp only [pairLoop] at hs
      split at hs
      · exact ih _ L hlb' (fun pt pb hp => by cases hp; exact hle) s hs
      · split at hs
        · rcases List.mem_cons.mp hs with h | h
          · rw [h]
            exact hpend pts pbat rfl
          · exact ih _ L hlb' (fun _ _ hp => by cases hp) s h
        · exact ih _ L hlb' (fun pt pb hp => by cases hp; exact hpend pts pbat rfl) s hs

/-- Every produced session satisfies `start ≤ end`, and consecutive sessions
satisfy `end ≤ next.start` (rows sorted, pending start bounded by the rows). -/
theorem pairLoop_chain (sk tk c : List Char) :
    ∀ (es : List Event) (pend : Option (Nat × Nat)),
      List.Sorted (fun a b : Event => a.ts ≤ b.ts) es →
      (∀ pt pb, pend = some (pt, pb) → ∀ e ∈ es, pt ≤ e.ts) →
      (∀ s ∈ pairLoop sk tk c pend es, s.start ≤ s.stop) ∧
      List.Chain' (fun s t => s.stop ≤ t.start) (pairLoop sk tk c pend es) := by
  intro es
  induction es with
  | nil => intro pend _ _; cases pend <;> (constructor <;> simp [pairLoop])
  | cons e es ih =>
    intro pend hsorted hpend
    rw [List.sorted_cons] at hsorted
    rcases pend with _ | ⟨pts, pbat⟩
    · simp only [pairLoop]
      split
      · exact ih _ hsorted.2 (fun pt pb hp => by cases hp; exact hsorted.1)
      · exact ih _ hsorted.2 (fun _ _ hp => by cases hp)
    · simp only [pairLoop]
      split
      · exact ih _ hsorted.2 (fun pt pb hp => by cases hp; exact hsorted.1)
      · split
        · have hinner := ih (none) hsorted.2 (fun _ _ hp => by cases hp)
          constructor
          · intro s hs
            rcases List.mem_cons.mp hs with h | h
            · rw [h]
              exact hpend pts pbat rfl e (List.mem_cons_self _ _)
            · exact hinner.1 s h
          · rw [List.chain'_cons']
            refine ⟨?_, hinner.2⟩
            intro b hb
            have hbmem : b ∈ pairLoop sk tk c none es := by
              cases hh : pairLoop sk tk c none es with
              | nil => rw [hh] at hb; simp at hb
              | cons x tl =>
                rw [hh] at hb
                simp only [List.head?_cons, Option.mem_def, Option.some.injEq] at hb
                rw [← hb]
                exact List.mem_cons_self _ _
            exact pairLoop_start_lb sk tk c es none e.ts hsorted.1
              (fun _ _ hp => by cases hp) b hbmem
        · exact ih _ hsorted.2
            (fun pt pb hp => by
              cases hp
              exact fun x hx => hpend pts pbat rfl x (List.mem_cons_of_mem _ hx))

/-- Provenance: every produced session's end comes from a stop row of the
scanned list (a row matching the stop keyword but not the start keyword),
and its start comes either from the pending start handed in or from a
start-matching row of the list. -/
theorem pairLoop_provenance (sk tk c : List Char) :
    ∀ (es : List Event) (pend : Option (Nat × Nat)),
      ∀ s ∈ pairLoop sk tk c pend es,
        (∃ e2 ∈ es, kwIn sk e2 = false ∧ kwIn tk e2 = true ∧
          s.stop = e2.ts ∧ s.end_bat = e2.bat) ∧
        ((∃ pt pb, pend = some (pt, pb) ∧ s.start = pt ∧ s.start_bat = pb) ∨
         (∃ e1 ∈ es, kwIn sk e1 = true ∧ s.start = e1.ts ∧ s.start_bat = e1.bat)) := by
  intro es
  induction es with
  | nil => intro pend s hs; cases pend <;> simp [pairLoop] at hs
  | cons e es ih =>
    intro pend s hs
    rcases pend with _ | ⟨pts, pbat⟩
    · simp only [pairLoop] at hs
      split at hs
      case isTrue hsk =>
        obtain ⟨h2, h1⟩ := ih _ s hs
        refine ⟨?_, ?_⟩
        · obtain ⟨e2, he2, ha, hb, hc, hd⟩ := h2
          exact ⟨e2, List.mem_cons_of_mem _ he2, ha, hb, hc, hd⟩
        · rcases h1 with ⟨pt, pb, hp, hst, hsb⟩ | ⟨e1, he1, ha, hb, hc⟩
          · cases hp
            exact Or.inr ⟨e, List.mem_cons_self _ _, hsk, hst, hsb⟩
          · exact Or.inr ⟨e1, List.mem_cons_of_mem _ he1, ha, hb, hc⟩
      case isFalse hsk =>
        obtain ⟨h2, h1⟩ := ih _ s hs
        refine ⟨?_, ?_⟩
        · obtain ⟨e2, he2, ha, hb, hc, hd⟩ := h2
          exact ⟨e2, List.mem_cons_of_mem _ he2, ha, hb, hc, hd⟩
        · rcases h1 with ⟨pt, pb, hp, _, _⟩ | ⟨e1, he1, ha, hb, hc⟩
          · cases hp
          · exact Or.inr ⟨e1, List.mem_cons_of_mem _ he1, ha, hb, hc⟩
    · simp only [pairLoop] at hs
      split at hs
      case isTrue hsk =>
        obtain ⟨h2, h1⟩ := ih _ s hs
        refine ⟨?_, ?_⟩
        · obtain ⟨e2, he2, ha, hb, hc, hd⟩ := h2
          exact ⟨e2, List.mem_cons_of_mem _ he2, ha, hb, hc, hd⟩
        · rcases h1 with ⟨pt, pb, hp, hst, hsb⟩ | ⟨e1, he1, ha, hb, hc⟩
          · cases hp
            exact Or.inr ⟨e, List.mem_cons_self _ _, hsk, hst, hsb⟩
          · exact Or.inr ⟨e1, List.mem_cons_of_mem _ he1, ha, hb, hc⟩
      case isFalse hsk =>
        split at hs
        case isTrue htk =>
          rcases List.mem_cons.mp hs with h | h
          · subst h
            refine ⟨⟨e, List.mem_cons_self _ _, by simpa using hsk, htk, rfl, rfl⟩, ?_⟩
            exact Or.inl ⟨pts, pbat, rfl, rfl, rfl⟩
          · obtain ⟨h2, h1⟩ := ih _ s h
            refine ⟨?_, ?_⟩
            · obtain ⟨e2, he2, ha, hb, hc, hd⟩ := h2
              exact ⟨e2, List.mem_cons_of_mem _ he2, ha, hb, hc, hd⟩
            · rcases h1 with ⟨pt, pb, hp, _, _⟩ | ⟨e1, he1, ha, hb, hc⟩
              · cases hp
              · exact Or.inr ⟨e1, List.mem_cons_of_mem _ he1, ha, hb, hc⟩
        case isFalse htk =>
          obtain ⟨h2, h1⟩ := ih _ s hs
          refine ⟨?_, ?_⟩
          · obtain ⟨e2, he2, ha, hb, hc, hd⟩ := h2
            exact ⟨e2, List.mem_cons_of_mem _ he2, ha, hb, hc, hd⟩
          · rcases h1 with ⟨pt, pb, hp, hst, hsb⟩ | ⟨e1, he1, ha, hb, hc⟩
            · cases hp
              exact Or.inl ⟨pts, pbat, rfl, hst, hsb⟩
            · exact Or.inr ⟨e1, List.mem_cons_of_mem _ he1, ha, hb, hc⟩

/-- No start keyword anywhere in the scanned rows and no pending start:
no session is ever produced. -/
theorem pairLoop_no_start (sk tk c : List Char) :
    ∀ (es : List Event), (∀ e ∈ es, kwIn sk e = false) →
      pairLoop sk tk c none es = [] := by
  intro es
  induction es with
  | nil => intro _; rfl
  | cons e es ih =>
    intro h
    have he : kwIn sk e = false := h e (List.mem_cons_self _ _)
    simp only [pairLoop, he, Bool.false_eq_true, if_false]
    exact ih (fun x hx => h x (List.mem_cons_of_mem _ hx))

/-- A start-matching row appended at the end of the stream changes nothing:
an unmatched trailing start produces no session. -/
theorem pairLoop_trailing_start (sk tk c : List Char) (e : Event)
    (he : kwIn sk e = true) :
    ∀ (es : List Event) (pend : Option (Nat × Nat)),
      pairLoop sk tk c pend (es ++ [e]) = pairLoop sk tk c pend es := by
  intro es
  induction es with
  | nil =>
    intro pend
    rcases pend with _ | ⟨pts, pbat⟩ <;>
      simp [pairLoop, he]
  | cons x es ih =>
    intro pend
    rcases pend with _ | ⟨pts, pbat⟩ <;>
      · simp only [List.cons_append, pairLoop]
        split
        · exact ih _
        · try split
          all_goals simp [ih]

/-- A stop-matching row seen with no pending start is dropped: the scan
continues as if the row were absent. -/
theorem pairLoop_stop_no_pending (sk tk c : List Char) (e : Event)
    (hsk : kwIn sk e = false) :
    ∀ (es : List Event), pairLoop sk tk c none (e :: es) = pairLoop sk tk c none es := by
  intro es
  simp [pairLoop, hsk]

theorem sessions_chainR : ∀ (l : List Session),
    (∀ s ∈ l, s.start ≤ s.stop) →
    List.Chain' (fun s t => s.stop ≤ t.start) l →
    List.Chain' (fun s t => s.start ≤ t.start ∧ s.stop ≤ t.start) l := by
  intro l
  induction l with
  | nil => intro _ _; exact List.chain'_nil
  | cons a l ih =>
    intro hse hch
    rw [List.chain'_cons'] at hch ⊢
    refine ⟨?_, ih (fun s hs => hse s (List.mem_cons_of_mem _ hs)) hch.2⟩
    intro b hb
    exact ⟨le_trans (hse a (List.mem_cons_self _ _)) (hch.1 b hb), hch.1 b hb⟩

theorem sessions_pairwise (l : List Session)
    (hse : ∀ s ∈ l, s.start ≤ s.stop)
    (hch : List.Chain' (fun s t => s.stop ≤ t.start) l) :
    List.Pairwise (fun s t => s.start ≤ t.start ∧ s.stop ≤ t.start) l :=
  (@List.chain'_iff_pairwise _ _
    ⟨fun _ _ _ h1 h2 => ⟨le_trans h1.1 h2.1, le_trans h1.2 h2.1⟩⟩ l).mp
    (sessions_chainR l hse hch)

theorem concatMap_nil_of (f : α → List β) (l : List α) (h : ∀ a ∈ l, f a = []) :
    concatMap f l = [] := by
  induction l with
  | nil => rfl
  | cons a l ih =>
    simp only [concatMap, h a (List.mem_cons_self _ _), List.nil_append]
    exact ih (fun x hx => h x (List.mem_cons_of_mem _ hx))

theorem mem_pair_rows_subset {sk tk : List Char} {df : List Event} {c : List Char}
    {e : Event} (h : e ∈ pair_rows sk tk df c) : e ∈ df := by
  unfold pair_rows at h
  rw [mem_sortByTs] at h
  exact List.mem_of_mem_filter (List.mem_of_mem_filter h)

/-- Claim C7: for every input and every camera, the session list that camera
gets — from the gap-based charging builder and from the paired builder with
any keywords alike — is sorted ascending by `start` and pairwise
non-overlapping (`end ≤` the later session's `start`). -/
theorem C7_session_ordering (df : List Event) (cam : List Char) :
    List.Pairwise (fun s t => s.start ≤ t.start ∧ s.stop ≤ t.start)
      (charging_sessions_for df cam) ∧
    ∀ sk tk, List.Pairwise (fun s t => s.start ≤ t.start ∧ s.stop ≤ t.start)
      (pair_sessions_for sk tk df cam) := by
  constructor
  · rw [charging_sessions_for_eq]
    cases hg : charging_rows df cam with
    | nil => exact List.Pairwise.nil
    | cons e0 rest =>
      have hsorted : List.Sorted (fun x y : Event => x.ts ≤ y.ts) (e0 :: rest) := by
        rw [← hg]
        exact sortByTs_sorted _
      rw [List.sorted_cons] at hsorted
      have hpw : List.Pairwise (fun x y : Nat × Nat => x.1 ≤ y.1)
          (rest.map fun x => (x.ts, x.bat)) := by
        rw [List.pairwise_map]
        exact hsorted.2
      have hlb : ∀ x ∈ rest.map (fun x : Event => (x.ts, x.bat)), e0.ts ≤ x.1 := by
        intro x hx
        rw [List.mem_map] at hx
        obtain ⟨y, hy, rfl⟩ := hx
        exact hsorted.1 y hy
      obtain ⟨hse, hch⟩ :=
        chargingLoop_chain cam (rest.map fun x => (x.ts, x.bat))
          e0.ts e0.bat e0.ts e0.bat hpw hlb (le_refl _)
      exact sessions_pairwise _ hse hch
  · intro sk tk
    rw [pair_sessions_for_eq]
    obtain ⟨hse, hch⟩ :=
      pairLoop_chain sk tk cam (pair_rows sk tk df cam) none
        (sortByTs_sorted _) (fun _ _ hp => by cases hp)
    exact sessions_pairwise _ hse hch

/-- Claim C2: pairing completeness. Every session the pair builder produces
is formed from one start row and one stop row of the input with
`start ≤ stop`; a start with no following stop before end of stream produces
no session (appending a trailing start changes nothing); a stop with no
pending start produces no session (it is skipped). -/
theorem C2_pairing_completeness (sk tk : List Char) (df : List Event) :
    (∀ s ∈ build_pair_sessions sk tk df,
      s.start ≤ s.stop ∧
      (∃ e1 ∈ df, kwIn sk e1 = true ∧ s.start = e1.ts ∧ s.start_bat = e1.bat) ∧
      (∃ e2 ∈ df, kwIn sk e2 = false ∧ kwIn tk e2 = true ∧
        s.stop = e2.ts ∧ s.end_bat = e2.bat)) ∧
    (∀ (c : List Char) (pend : Option (Nat × Nat)) (es : List Event) (e : Event),
      kwIn sk e = true →
      pairLoop sk tk c pend (es ++ [e]) = pairLoop sk tk c pend es) ∧
    (∀ (c : List Char) (es : List Event) (e : Event),
      kwIn sk e = false → kwIn tk e = true →
      pairLoop sk tk c none (e :: es) = pairLoop sk tk c none es) := by
  refine ⟨?_, ?_, ?_⟩
  · intro s hs
    unfold build_pair_sessions at hs
    rw [mem_concatMap] at hs
    obtain ⟨c, _, hs⟩ := hs
    have hrows : s ∈ pairLoop sk tk c none (pair_rows sk tk df c) := hs
    have hse := (pairLoop_chain sk tk c (pair_rows sk tk df c) none
      (sortByTs_sorted _) (fun _ _ hp => by cases hp)).1 s hrows
    obtain ⟨⟨e2, he2, h2a, h2b, h2c, h2d⟩, hstart⟩ :=
      pairLoop_provenance sk tk c (pair_rows sk tk df c) none s hrows
    rcases hstart with ⟨_, _, hp, _, _⟩ | ⟨e1, he1, h1a, h1b, h1c⟩
    · cases hp
    · exact ⟨hse, ⟨e1, mem_pair_rows_subset he1, h1a, h1b, h1c⟩,
        ⟨e2, mem_pair_rows_subset he2, h2a, h2b, h2c, h2d⟩⟩
  · intro c pend es e he
    exact pairLoop_trailing_start sk tk c e he es pend
  · intro c es e hsk htk
    exact pairLoop_stop_no_pending sk tk c e hsk es

/-- Witness for C2 at concrete inputs: the one session built from a
start/stop pair satisfies the completeness conditions; a trailing unmatched
start adds nothing; a leading stop with no pending start adds nothing. -/
theorem C2_pairing_witness :
    ((⟨"007446".data, 100, 200, 60, 70⟩ : Session).start ≤
        (⟨"007446".data, 100, 200, 60, 70⟩ : Session).stop ∧
      (∃ e1 ∈ [evOn 100 60, evOff 200 70], kwIn ("power on".data) e1 = true ∧
        (⟨"007446".data, 100, 200, 60, 70⟩ : Session).start = e1.ts ∧
        (⟨"007446".data, 100, 200, 60, 70⟩ : Session).start_bat = e1.bat) ∧
      (∃ e2 ∈ [evOn 100 60, evOff 200 70], kwIn ("power on".data) e2 = false ∧
        kwIn ("power off".data) e2 = true ∧
        (⟨"007446".data, 100, 200, 60, 70⟩ : Session).stop = e2.ts ∧
        (⟨"007446".data, 100, 200, 60, 70⟩ : Session).end_bat = e2.bat)) ∧
    pairLoop ("power on".data) ("power off".data) ("007446".data) none
        ([evOn 100 60, evOff 200 70] ++ [evOn 300 80]) =
      pairLoop ("power on".data) ("power off".data) ("007446".data) none
        [evOn 100 60, evOff 200 70] ∧
    pairLoop ("power on".data) ("power off".data) ("007446".data) none
        (evOff 50 90 :: [evOn 100 60, evOff 200 70]) =
      pairLoop ("power on".data) ("power off".data) ("007446".data) none
        [evOn 100 60, evOff 200 70] :=
  ⟨(C2_pairing_completeness ("power on".data) ("power off".data)
      [evOn 100 60, evOff 200 70]).1 ⟨"007446".data, 100, 200, 60, 70⟩ (by decide),
   (C2_pairing_completeness ("power on".data) ("power off".data) []).2.1
      ("007446".data) none [evOn 100 60, evOff 200 70] (evOn 300 80) (by decide),
   (C2_pairing_completeness ("power on".data) ("power off".data) []).2.2
      ("007446".data) [evOn 100 60, evOff 200 70] (evOff 50 90) (by decide) (by decide)⟩

/-- A run of start rows followed by one stop row pairs the stop with the
LAST start: each start overwrites the pending one. -/
theorem pairLoop_last_start (sk tk c : List Char) (e3 : Event)
    (h3s : kwIn sk e3 = false) (h3t : kwIn tk e3 = true) :
    ∀ (starts : List Event) (eL : Event) (pend : Option (Nat × Nat)),
      (∀ e ∈ starts, kwIn sk e = true) → kwIn sk eL = true →
      pairLoop sk tk c pend (starts ++ eL :: [e3]) =
        [⟨c, eL.ts, e3.ts, eL.bat, e3.bat⟩] := by
  intro starts
  induction starts with
  | nil =>
    intro eL pend _ hL
    rcases pend with _ | ⟨pts, pbat⟩ <;>
      simp [pairLoop, hL, h3s, h3t]
  | cons a starts ih =>
    intro eL pend hall hL
    have ha : kwIn sk a = true := hall a (List.mem_cons_self _ _)
    have hrec := ih eL (some (a.ts, a.bat)) (fun x hx => hall x (List.mem_cons_of_mem _ hx)) hL
    rcases pend with _ | ⟨pts, pbat⟩ <;>
      simpa [pairLoop, ha] using hrec

/-- Claim C3 (amended): when one or more start events precede the next stop
event, the session produced at that stop takes its start timestamp and
battery from the LAST of those start events — each later start overwrites the
pending one, so the first start is discarded, not retained. -/
theorem C3_last_start (sk tk c : List Char) (starts : List Event) (eL e3 : Event)
    (pend : Option (Nat × Nat))
    (hall : ∀ e ∈ starts, kwIn sk e = true) (hL : kwIn sk eL = true)
    (h3s : kwIn sk e3 = false) (h3t : kwIn tk e3 = true) :
    pairLoop sk tk c pend (starts ++ eL :: [e3]) =
      [⟨c, eL.ts, e3.ts, eL.bat, e3.bat⟩] :=
  pairLoop_last_start sk tk c e3 h3s h3t starts eL pend hall hL

/-- Counterexample to C3 as stated: with starts at 0 (battery 50) and 100
(battery 60) before the stop at 200, the produced session starts at 100 with
battery 60 — the SECOND start — and no session starts at the first start's
timestamp 0. -/
theorem C3_counterexample :
    build_pair_sessions ("power on".data) ("power off".data) dfC3 =
      [⟨"007446".data, 100, 200, 60, 70⟩] ∧
    ∀ s ∈ build_pair_sessions ("power on".data) ("power off".data) dfC3,
      s.start ≠ 0 ∧ s.start_bat ≠ 50 := by
  decide

/-- Witness for the amended C3 at a concrete input. -/
theorem C3_last_start_witness :
    pairLoop ("power on".data) ("power off".data) ("007446".data) none
        ([evOn 0 50] ++ evOn 100 60 :: [evOff 200 70]) =
      [⟨"007446".data, 100, 200, 60, 70⟩] :=
  C3_last_start ("power on".data) ("power off".data) ("007446".data)
    [evOn 0 50] (evOn 100 60) (evOff 200 70) none
    (by decide) (by decide) (by decide) (by decide)

/-- Claim C8: for any input whose power rows (under the builder's own filter)
are exactly a `Power On` at 08:00 / 90% followed by a `Power Off` at 18:00 /
40% of one camera, the power builder produces exactly one session spanning
those two rows, with batteries 90 → 40 and duration exactly 10 hours. -/
theorem C8_power_scenario (df : List Event)
    (h : df.filter (pairFilter ("power on".data) ("power off".data)) = [e1P, e2P]) :
    power_sessions df =
      [⟨"007446".data, epochSecs 2025 9 9 8 0 0, epochSecs 2025 9 9 18 0 0, 90, 40⟩] ∧
    ∀ s ∈ power_sessions df, s.duration_h = 10 := by
  have hb : power_sessions df =
      concatMap
        (fun c => pairLoop ("power on".data) ("power off".data) c none
          (sortByTs (((df.filter (pairFilter ("power on".data) ("power off".data)))).filter
            (fun e => decide (e.cam = c)))))
        (((df.filter (pairFilter ("power on".data) ("power off".data))).map
          (fun e => e.cam)).dedup) := rfl
  have hlist : power_sessions df =
      [⟨"007446".data, epochSecs 2025 9 9 8 0 0, epochSecs 2025 9 9 18 0 0, 90, 40⟩] := by
    rw [hb, h]
    decide
  refine ⟨hlist, ?_⟩
  intro s hs
  rw [hlist, List.mem_singleton] at hs
  subst hs
  unfold Session.duration_h
  have h36 : ((⟨"007446".data, epochSecs 2025 9 9 8 0 0, epochSecs 2025 9 9 18 0 0,
      90, 40⟩ : Session).stop -
      (⟨"007446".data, epochSecs 2025 9 9 8 0 0, epochSecs 2025 9 9 18 0 0,
      90, 40⟩ : Session).start) = 36000 := by decide
  rw [h36]
  norm_num

/-- Witness for C8: the two scenario rows alone. -/
theorem C8_power_scenario_witness :
    power_sessions [e1P, e2P] =
      [⟨"007446".data, epochSecs 2025 9 9 8 0 0, epochSecs 2025 9 9 18 0 0, 90, 40⟩] ∧
    ∀ s ∈ power_sessions [e1P, e2P], s.duration_h = 10 :=
  C8_power_scenario [e1P, e2P] (by decide)

/-- Claim C10 (amended): the pre-record invocation produces zero sessions for
every input in which no row's event text contains the WHOLE `|`-joined
alternation string as a literal substring of its lowercased text — in
particular for every realistic log, whose event texts contain no `|`. The
per-row test checks the entire alternation string literally, so no ordinary
`start pre record` row can ever open a pending session. -/
theorem C10_pre_record_dead (df : List Event)
    (h : ∀ e ∈ df, substr preStartKw (lc e.event) = false) :
    pre_rec_sessions df = [] := by
  unfold pre_rec_sessions build_pair_sessions
  apply concatMap_nil_of
  intro c _
  apply pairLoop_no_start
  intro e he
  rw [mem_sortByTs] at he
  exact h e (List.mem_of_mem_filter (List.mem_of_mem_filter he))

/-- Counterexample to C10 as stated ("zero sessions for EVERY possible input
DataFrame"): rows whose event text literally contains the pipe-joined
alternation strings do satisfy the literal per-row test, and a session is
produced. -/
theorem C10_counterexample :
    pre_rec_sessions dfPipe = [⟨"007446".data, 0, 5, 10, 20⟩] ∧
    pre_rec_sessions dfPipe ≠ [] := by
  decide

/-- Witness for the amended C10: an ordinary pre-record start/stop log (no
pipes in the event texts) yields no pre-record session at all. -/
theorem C10_pre_record_dead_witness :
    pre_rec_sessions
      [⟨0, "007446".data, "Start Pre Record".data, 10⟩,
       ⟨5, "007446".data, "Stop Pre Record".data, 20⟩] = [] :=
  C10_pre_record_dead
    [⟨0, "007446".data, "Start Pre Record".data, 10⟩,
     ⟨5, "007446".data, "Stop Pre Record".data, 20⟩] (by decide)

theorem lookupEvMap_none :
    ∀ (table : List (List Char × List Char)) (evl : List Char),
      (∀ kv ∈ table, substr kv.1 evl = false) → lookupEvMap table evl = none := by
  intro table
  induction table with
  | nil => intro evl _; rfl
  | cons kv table ih =>
    intro evl h
    have hk := h kv (List.mem_cons_self _ _)
    simp only [lookupEvMap, hk, Bool.false_eq_true, if_false]
    exact ih evl (fun x hx => h x (List.mem_cons_of_mem _ hx))

theorem replaceAllGo_id (p : Char) (ps sub : List Char) :
    ∀ (fuel : Nat) (s : List Char), ¬((p :: ps) <:+: s) →
      replaceAllGo p ps sub fuel s = s := by
  intro fuel
  induction fuel with
  | zero => intro s _; cases s <;> rfl
  | succ fuel ih =>
    intro s hnin
    cases s with
    | nil => rfl
    | cons c rest =>
      have hcond : ¬(c = p ∧ ps.isPrefixOf rest = true) := by
        rintro ⟨rfl, hpre⟩
        apply hnin
        obtain ⟨t, ht⟩ := List.isPrefixOf_iff_prefix.mp hpre
        exact ⟨[], t, by simp [← ht]⟩
      simp only [replaceAllGo, if_neg hcond]
      have : ¬((p :: ps) <:+: rest) := fun hin =>
        hnin (List.infix_cons_iff.mpr (Or.inr hin))
      rw [ih rest this]

theorem pyReplace_id (p : Char) (ps sub s : List Char) (h : ¬((p :: ps) <:+: s)) :
    pyReplace (p :: ps) sub s = s :=
  replaceAllGo_id p ps sub s.length s h

/-- Claim C6 (amended): when none of the table patterns occurs in the
lowercased label and none of the three literal replacement sources occurs in
the label, normalization returns the TITLE-CASED label (`ev.title()`), not
the trimmed original text verbatim. -/
theorem C6_fallback_title (ev : List Char)
    (hk : ∀ kv ∈ ev_map, substr kv.1 (lc ev) = false)
    (h1 : ¬("usb command".data <:+: ev))
    (h2 : ¬("usb remove".data <:+: ev))
    (h3 : ¬("auto".data <:+: ev)) :
    normalize_event_name ev = title ev := by
  unfold normalize_event_name
  rw [lookupEvMap_none ev_map (lc ev) hk]
  have r1 : pyReplace ("usb command".data) ("USB disconnected".data) ev = ev :=
    pyReplace_id _ _ _ _ h1
  have r2 : pyReplace ("usb remove".data) ("USB removed".data) ev = ev :=
    pyReplace_id _ _ _ _ h2
  have r3 : pyReplace ("auto".data) ("automatic".data) ev = ev :=
    pyReplace_id _ _ _ _ h3
  rw [r1, r2, r3]

/-- Counterexample to C6 as stated: the label `hello world` matches no
pattern, yet normalization returns `Hello World` — the title-cased text, not
the trimmed original verbatim. -/
theorem C6_counterexample :
    normalize_event_name ("hello world".data) ≠ pyStrip ("hello world".data) ∧
    normalize_event_name ("hello world".data) = "Hello World".data ∧
    (∀ kv ∈ ev_map, substr kv.1 (lc ("hello world".data)) = false) := by
  decide

/-- Witness for the amended C6. -/
theorem C6_fallback_title_witness :
    normalize_event_name ("hello world".data) = title ("hello world".data) :=
  C6_fallback_title ("hello world".data) (by decide) (by decide) (by decide) (by decide)

/-- Claim C9: a line whose timestamp text matches the digit layout but is not
a valid calendar date-time yields zero events — the regex does match
(`searchFrom` succeeds), `strptime` fails, the `except` clause drops the
line — no exception escapes (the model is a total function), and all other
lines parse exactly as they would without it. -/
theorem C9_malformed_timestamp :
    (searchFrom badLine).isSome = true ∧
    parse_line badLine = none ∧
    ∀ pre post : List (List Char),
      parse_logs (pre ++ badLine :: post) = parse_logs (pre ++ post) := by
  refine ⟨by decide, by decide, ?_⟩
  intro pre post
  unfold parse_logs
  rw [concatMap_append, concatMap_append]
  have hbad :
      (if pyStrip badLine = [] then [] else (parse_line (pyStrip badLine)).toList) =
        ([] : List Event) := by decide
  simp only [concatMap, hbad, List.nil_append]

/-! ## Parser lemmas -/

theorem dropWhile_suffix_of (p : Char → Bool) : ∀ l : List Char, l.dropWhile p <:+ l := by
  intro l
  induction l with
  | nil => exact List.suffix_refl _
  | cons c rs ih =>
    rw [List.dropWhile_cons]
    split
    · exact ih.trans (List.suffix_cons c rs)
    · exact List.suffix_refl _

theorem expect_suffix {ch : Char} : ∀ {l r : List Char}, expect ch l = some r → r <:+ l := by
  intro l r h
  cases l with
  | nil => simp [expect] at h
  | cons x rs =>
    simp only [expect] at h
    split at h
    · cases h
      exact List.suffix_cons _ _
    · cases h

theorem expectCI_suffix {ch : Char} : ∀ {l r : List Char}, expectCI ch l = some r → r <:+ l := by
  intro l r h
  cases l with
  | nil => simp [expectCI] at h
  | cons x rs =>
    simp only [expectCI] at h
    split at h
    · cases h
      exact List.suffix_cons _ _
    · cases h

theorem ws1_suffix : ∀ {l r : List Char}, ws1 l = some r → r <:+ l := by
  intro l r h
  cases l with
  | nil => simp [ws1] at h
  | cons x rs =>
    simp only [ws1] at h
    split at h
    · cases h
      exact (dropWhile_suffix_of isPySpace rs).trans (List.suffix_cons x rs)
    · cases h

theorem takeDigitChars_suffix :
    ∀ (n : Nat) (l ds r : List Char), takeDigitChars n l = some (ds, r) → r <:+ l := by
  intro n
  induction n with
  | zero =>
    intro l ds r h
    simp only [takeDigitChars, Option.some.injEq] at h
    have : l = r := congrArg (fun p => p.2) h
    subst this
    exact List.suffix_refl _
  | succ n ih =>
    intro l ds r h
    cases l with
    | nil => simp [takeDigitChars] at h
    | cons c rs =>
      simp only [takeDigitChars] at h
      split at h
      · rw [Option.map_eq_some'] at h
        obtain ⟨⟨ds', r'⟩, hx, hf⟩ := h
        have hr : r' = r := congrArg (fun p => p.2) hf
        rw [← hr]
        exact (ih rs ds' r' hx).trans (List.suffix_cons c rs)
      · cases h

theorem takeDigitChars_spec :
    ∀ (n : Nat) (l ds r : List Char), takeDigitChars n l = some (ds, r) →
      ds.length = n ∧ ∀ c ∈ ds, c.isDigit = true := by
  intro n
  induction n with
  | zero =>
    intro l ds r h
    simp only [takeDigitChars, Option.some.injEq] at h
    have hds : ([] : List Char) = ds := congrArg (fun p => p.1) h
    rw [← hds]
    exact ⟨rfl, fun c hc => absurd hc (List.not_mem_nil c)⟩
  | succ n ih =>
    intro l ds r h
    cases l with
    | nil => simp [takeDigitChars] at h
    | cons c rs =>
      simp only [takeDigitChars] at h
      split at h
      case isTrue hdig =>
        rw [Option.map_eq_some'] at h
        obtain ⟨⟨ds', r'⟩, hx, hf⟩ := h
        have hds : c :: ds' = ds := congrArg (fun p => p.1) hf
        obtain ⟨hlen, hdigs⟩ := ih rs ds' r' hx
        rw [← hds]
        refine ⟨by simp [hlen], ?_⟩
        intro x hx'
        rcases List.mem_cons.mp hx' with rfl | hx'
        · exact hdig
        · exact hdigs x hx'
      case isFalse => cases h

theorem stripCI_prefix_lc :
    ∀ (p l r : List Char), stripCI p l = some r →
      p.map Char.toLower <+: l.map Char.toLower := by
  intro p
  induction p with
  | nil => intro l r _; exact List.nil_prefix
  | cons pc ps ih =>
    intro l r h
    cases l with
    | nil => simp [stripCI] at h
    | cons c cs =>
      simp only [stripCI] at h
      split at h
      case isTrue hc =>
        rw [List.map_cons, List.map_cons, List.cons_prefix_cons]
        exact ⟨hc.symm, ih cs r h⟩
      case isFalse => cases h

theorem matchBatteryAt_strip {l : List Char} {b : Nat}
    (h : matchBatteryAt l = some b) :
    ∃ r, stripCI ("battery level".data) l = some r := by
  simp only [matchBatteryAt, Option.bind_eq_some] at h
  obtain ⟨r, hr, _⟩ := h
  exact ⟨r, hr⟩

theorem greedyBattery_some :
    ∀ (l : List Char) (b : Nat), greedyBattery l = some b →
      ∃ l4, l4 <:+ l ∧ matchBatteryAt l4 = some b := by
  intro l
  induction l with
  | nil => intro b h; exact ⟨[], List.suffix_refl _, h⟩
  | cons c rs ih =>
    intro b h
    simp only [greedyBattery] at h
    cases hif : (if c = '\n' then none else greedyBattery rs) with
    | some b0 =>
      rw [hif] at h
      simp only [Option.some.injEq] at h
      by_cases hc : c = '\n'
      · rw [if_pos hc] at hif
        cases hif
      · rw [if_neg hc] at hif
        obtain ⟨l4, hs, hm⟩ := ih b0 hif
        exact ⟨l4, hs.trans (List.suffix_cons c rs), h ▸ hm⟩
    | none =>
      rw [hif] at h
      exact ⟨c :: rs, List.suffix_refl _, h⟩

theorem matchDashBattery_some {l : List Char} {b : Nat}
    (h : matchDashBattery l = some b) :
    ∃ l4, l4 <:+ l ∧ matchBatteryAt l4 = some b := by
  simp only [matchDashBattery, Option.bind_eq_some] at h
  obtain ⟨r, hr, hg⟩ := h
  obtain ⟨l4, hs, hm⟩ := greedyBattery_some r b hg
  exact ⟨l4, (hs.trans (expect_suffix hr)).trans (dropWhile_suffix_of isPySpace l), hm⟩

theorem lazyEvent_some :
    ∀ (l acc ev : List Char) (b : Nat), lazyEvent acc l = some (ev, b) →
      ∃ l3, l3 <:+ l ∧ matchDashBattery l3 = some b := by
  intro l
  induction l with
  | nil =>
    intro acc ev b h
    simp only [lazyEvent, Option.map_eq_some'] at h
    obtain ⟨b0, hb0, hf⟩ := h
    have : b0 = b := congrArg (fun p => p.2) hf
    exact ⟨[], List.suffix_refl _, this ▸ hb0⟩
  | cons c rs ih =>
    intro acc ev b h
    cases hm : matchDashBattery (c :: rs) with
    | some b0 =>
      simp only [lazyEvent, hm, Option.some.injEq] at h
      have : b0 = b := congrArg (fun p => p.2) h
      exact ⟨c :: rs, List.suffix_refl _, this ▸ hm⟩
    | none =>
      simp only [lazyEvent, hm] at h
      split at h
      · cases h
      · obtain ⟨l3, hs, hmm⟩ := ih (c :: acc) ev b h
        exact ⟨l3, hs.trans (List.suffix_cons c rs), hmm⟩

theorem suffix_map (f : Char → Char) {a b : List Char} (h : a <:+ b) :
    a.map f <:+ b.map f := by
  obtain ⟨s, rfl⟩ := h
  exact ⟨s.map f, (List.map_append f s a).symm⟩

theorem prefix_suffix_to_mid (p m L : List Char) (hp : p <+: m) (hm : m <:+ L) :
    p <:+: L := by
  obtain ⟨t, rfl⟩ := hp
  obtain ⟨s, rfl⟩ := hm
  exact ⟨s, t, by simp [List.append_assoc]⟩

theorem matchDate_suffix {l : List Char} {ymd : Nat × Nat × Nat} {r : List Char}
    (h : matchDate l = some (ymd, r)) : r <:+ l := by
  simp only [matchDate, Option.bind_eq_some] at h
  obtain ⟨⟨y4, l1⟩, h1, h⟩ := h
  obtain ⟨l2, h2, h⟩ := h
  obtain ⟨⟨mo2, l3⟩, h3, h⟩ := h
  obtain ⟨l4, h4, h⟩ := h
  obtain ⟨⟨d2, l5⟩, h5, h⟩ := h
  have hr : l5 = r := congrArg (fun p => p.2) (Option.some.inj h)
  subst hr
  exact ((((takeDigitChars_suffix 2 l4 d2 l5 h5).trans (expect_suffix h4)).trans
    (takeDigitChars_suffix 2 l2 mo2 l3 h3)).trans (expect_suffix h2)).trans
    (takeDigitChars_suffix 4 l y4 l1 h1)

theorem matchTime_suffix {l : List Char} {hms : Nat × Nat × Nat} {r : List Char}
    (h : matchTime l = some (hms, r)) : r <:+ l := by
  simp only [matchTime, Option.bind_eq_some] at h
  obtain ⟨⟨h2c, l1⟩, h1, h⟩ := h
  obtain ⟨l2, h2, h⟩ := h
  obtain ⟨⟨mi2, l3⟩, h3, h⟩ := h
  obtain ⟨l4, h4, h⟩ := h
  obtain ⟨⟨s2, l5⟩, h5, h⟩ := h
  have hr : l5 = r := congrArg (fun p => p.2) (Option.some.inj h)
  subst hr
  exact ((((takeDigitChars_suffix 2 l4 s2 l5 h5).trans (expect_suffix h4)).trans
    (takeDigitChars_suffix 2 l2 mi2 l3 h3)).trans (expect_suffix h2)).trans
    (takeDigitChars_suffix 2 l h2c l1 h1)

theorem matchIdCam_spec {l cam r : List Char}
    (h : matchIdCam l = some (cam, r)) :
    r <:+ l ∧ ∃ d1 d2, cam = d1 ++ '-' :: d2 ∧ d1.length = 6 ∧ d2.length = 6 ∧
      (∀ c ∈ d1, c.isDigit = true) ∧ (∀ c ∈ d2, c.isDigit = true) := by
  simp only [matchIdCam, Option.bind_eq_some] at h
  obtain ⟨l1, h1, h⟩ := h
  obtain ⟨l2, h2, h⟩ := h
  obtain ⟨l3, h3, h⟩ := h
  obtain ⟨l4, h4, h⟩ := h
  obtain ⟨⟨c1, l5⟩, h5, h⟩ := h
  obtain ⟨l6, h6, h⟩ := h
  obtain ⟨⟨c2, l7⟩, h7, h⟩ := h
  have hcam : c1 ++ '-' :: c2 = cam := congrArg (fun p => p.1) (Option.some.inj h)
  have hr : l7 = r := congrArg (fun p => p.2) (Option.some.inj h)
  subst hr
  constructor
  · exact ((((((takeDigitChars_suffix 6 l6 c2 l7 h7).trans (expect_suffix h6)).trans
      (takeDigitChars_suffix 6 l4 c1 l5 h5)).trans (expect_suffix h4)).trans
      (expectCI_suffix h3)).trans (expectCI_suffix h2)).trans (expect_suffix h1)
  · obtain ⟨hlen1, hd1⟩ := takeDigitChars_spec 6 l4 c1 l5 h5
    obtain ⟨hlen2, hd2⟩ := takeDigitChars_spec 6 l6 c2 l7 h7
    exact ⟨c1, c2, hcam.symm, hlen1, hlen2, hd1, hd2⟩

theorem matchHeader_spec {l : List Char}
    {hd : (Nat × Nat × Nat) × (Nat × Nat × Nat) × List Char × List Char}
    (h : matchHeader l = some hd) :
    hd.2.2.2 <:+ l ∧ ∃ d1 d2, hd.2.2.1 = d1 ++ '-' :: d2 ∧ d1.length = 6 ∧
      d2.length = 6 ∧ (∀ c ∈ d1, c.isDigit = true) ∧ (∀ c ∈ d2, c.isDigit = true) := by
  simp only [matchHeader, Option.bind_eq_some] at h
  obtain ⟨⟨ymd, l1⟩, h1, h⟩ := h
  obtain ⟨l2, h2, h⟩ := h
  obtain ⟨⟨hms, l3⟩, h3, h⟩ := h
  obtain ⟨l4, h4, h⟩ := h
  obtain ⟨⟨cam, l5⟩, h5, h⟩ := h
  obtain ⟨l6, h6, h⟩ := h
  obtain ⟨l7, h7, h⟩ := h
  have hhd : ((ymd, hms, cam, l7) :
      (Nat × Nat × Nat) × (Nat × Nat × Nat) × List Char × List Char) = hd :=
    Option.some.inj h
  obtain ⟨hsfx, hshape⟩ := matchIdCam_spec h5
  subst hhd
  constructor
  · exact (((((expect_suffix h7).trans (ws1_suffix h6)).trans hsfx).trans
      (ws1_suffix h4)).trans (matchTime_suffix h3)).trans
      ((expect_suffix h2).trans (matchDate_suffix h1))
  · exact hshape

theorem matchAt_spec {l : List Char} {g : RawLine} (h : matchAt l = some g) :
    (∃ l4, l4 <:+ l ∧ matchBatteryAt l4 = some g.bat) ∧
    ∃ d1 d2, g.cam = d1 ++ '-' :: d2 ∧ d1.length = 6 ∧ d2.length = 6 ∧
      (∀ c ∈ d1, c.isDigit = true) ∧ (∀ c ∈ d2, c.isDigit = true) := by
  simp only [matchAt, Option.bind_eq_some] at h
  obtain ⟨hd, hh, h⟩ := h
  obtain ⟨⟨ev, bat⟩, hl, h⟩ := h
  obtain ⟨hsfx, hshape⟩ := matchHeader_spec hh
  have hg : g.cam = hd.2.2.1 := by rw [← Option.some.inj h]
  have hgb : g.bat = bat := by rw [← Option.some.inj h]
  constructor
  · obtain ⟨l3, hs3, hdash⟩ := lazyEvent_some hd.2.2.2 [] ev bat hl
    obtain ⟨l4, hs4, hbat⟩ := matchDashBattery_some hdash
    exact ⟨l4, (hs4.trans hs3).trans hsfx, hgb ▸ hbat⟩
  · rw [hg]
    exact hshape

theorem searchFrom_spec :
    ∀ (l : List Char) (g : RawLine), searchFrom l = some g →
      ∃ l0, l0 <:+ l ∧ matchAt l0 = some g := by
  intro l
  induction l with
  | nil => intro g h; exact ⟨[], List.suffix_refl _, h⟩
  | cons c rs ih =>
    intro g h
    cases hm : matchAt (c :: rs) with
    | some g0 =>
      simp only [searchFrom, hm] at h
      exact ⟨c :: rs, List.suffix_refl _, hm.trans h⟩
    | none =>
      simp only [searchFrom, hm] at h
      obtain ⟨l0, hs, hmm⟩ := ih g h
      exact ⟨l0, hs.trans (List.suffix_cons c rs), hmm⟩

/-- Claim C4 (amended): the battery clause is REQUIRED, not optional — a line
whose lowercased text nowhere contains `battery level` can never match the
pattern (every successful match passes through the `Battery Level` literal),
so the parser returns no event for it. -/
theorem C4_battery_required (line : List Char)
    (h : ¬("battery level".data <:+: lc line)) :
    parse_line line = none := by
  cases hs : searchFrom line with
  | none =>
    unfold parse_line
    rw [hs]
  | some g =>
    exfalso
    apply h
    obtain ⟨l0, hl0, hm⟩ := searchFrom_spec line g hs
    obtain ⟨⟨l4, hl4, hb⟩, _⟩ := matchAt_spec hm
    obtain ⟨r, hstrip⟩ := matchBatteryAt_strip hb
    have hp : ("battery level".data.map Char.toLower) <+: (l4.map Char.toLower) :=
      stripCI_prefix_lc _ _ _ hstrip
    have hpat : ("battery level".data.map Char.toLower) = "battery level".data := by
      decide
    rw [hpat] at hp
    exact prefix_suffix_to_mid _ _ _ hp (suffix_map Char.toLower (hl4.trans hl0))

/-- Counterexample to C4 as stated: that line produces NO event, while the
same line with a `Battery Level` clause appended parses fine — the absent
battery clause alone makes the parser reject the line. -/
theorem C4_counterexample :
    parse_line noBatteryLine = none ∧
    (parse_line
      ("2025-09-09 00:01:44 #ID:007446-000000 #Power On - Battery Level - 88%".data)).isSome
      = true := by
  decide

/-- Witness for the amended C4. -/
theorem C4_battery_required_witness : parse_line noBatteryLine = none :=
  C4_battery_required noBatteryLine (by decide)

/-- Claim C5 (amended): the stored camera identity is the FULL two-group
token `\d{6}-\d{6}` (13 characters, dash included) — the second group is NOT
discarded. -/
theorem C5_camera_full_token (line : List Char) (e : Event)
    (h : parse_line line = some e) :
    ∃ d1 d2, e.cam = d1 ++ '-' :: d2 ∧ d1.length = 6 ∧ d2.length = 6 ∧
      (∀ c ∈ d1, c.isDigit = true) ∧ (∀ c ∈ d2, c.isDigit = true) := by
  cases hs : searchFrom line with
  | none =>
    simp only [parse_line, hs] at h
    cases h
  | some g =>
    simp only [parse_line, hs] at h
    by_cases hv : validDT g = true
    · rw [if_pos hv] at h
      have he : g.toEvent = e := Option.some.inj h
      obtain ⟨l0, hl0, hm⟩ := searchFrom_spec line g hs
      obtain ⟨_, d1, d2, hcam, h6a, h6b, hd1, hd2⟩ := matchAt_spec hm
      refine ⟨d1, d2, ?_, h6a, h6b, hd1, hd2⟩
      rw [← he]
      exact hcam
    · rw [if_neg hv] at h
      cases h

/-- Counterexample to C5 as stated: parsing the sample line stores the full
token `007446-000000` as the camera, not the first group `007446`. -/
theorem C5_counterexample :
    (parse_line sampleLine).map (fun e => e.cam) = some ("007446-000000".data) ∧
    ("007446-000000".data : List Char) ≠ "007446".data := by
  decide

/-- Witness for the amended C5 on the sample line. -/
theorem C5_camera_full_token_witness :
    ∃ d1 d2,
      (Event.mk (epochSecs 2025 9 9 0 1 44) ("007446-000000".data)
        ("Battery Charging".data) 66).cam = d1 ++ '-' :: d2 ∧
      d1.length = 6 ∧ d2.length = 6 ∧
      (∀ c ∈ d1, c.isDigit = true) ∧ (∀ c ∈ d2, c.isDigit = true) :=
  C5_camera_full_token sampleLine
    (Event.mk (epochSecs 2025 9 9 0 1 44) ("007446-000000".data)
      ("Battery Charging".data) 66) (by decide)
